import Mathlib

/-!
Verification development for `epub_to_text.py`, a single-file EPUB → text
converter.  The Python source is shallowly embedded below:

* `clean_html_content` (source lines 34–50): HTML parsing is modelled by an
  explicit tree type `Html`; `soup.get_text()` becomes `getTextList`;
  decomposing script/style elements becomes `stripSSList`;
  `re.sub(r'\s+', ' ', text).strip()` becomes `pyStrip (collapseWsStr text)`;
  `re.sub(r'\n\s*\n', '\n\n', text)` becomes `collapsePara`.
* the main item loop of `epub_to_text` (lines 52–88) becomes `processItems`;
* the CLI wrapper `main` (lines 99–136) together with the file-existence
  check, metadata access and output write of `epub_to_text` becomes
  `runMain`, an explicit state-passing model of one process run.
-/

/-- The whitespace class used by Python's `re` module (`\s`) and `str.strip`,
restricted to its ASCII members: space, tab, newline, carriage return,
vertical tab and form feed. -/
def isSpaceChar (c : Char) : Bool :=
  c == ' ' || c == '\t' || c == '\n' || c == '\r' || c == '\x0b' || c == '\x0c'

/-- Core of `re.sub(r'\s+', ' ', text)`: every maximal run of whitespace is
replaced by a single space.  The flag records whether the previously emitted
character position was inside a whitespace run. -/
def collapseWsAux : List Char → Bool → List Char
  | [], _ => []
  | c :: cs, prevWs =>
    if isSpaceChar c then
      if prevWs then collapseWsAux cs true
      else ' ' :: collapseWsAux cs true
    else c :: collapseWsAux cs false

/-- Removes the trailing whitespace run of a list, as the right half of
Python's `str.strip`. -/
def dropTrailWs : List Char → List Char
  | [] => []
  | c :: cs =>
    match dropTrailWs cs with
    | [] => if isSpaceChar c then [] else [c]
    | r :: rs => c :: r :: rs

/-- Python's `str.strip()` on a character list: drop the leading and the
trailing whitespace run. -/
def pyStripList (l : List Char) : List Char :=
  dropTrailWs (l.dropWhile isSpaceChar)

/-- Helper for the regex `\n\s*\n`: given the characters following an initial
newline, a greedy-with-backtracking `\s*\n` consumes up to (and including) the
last newline inside the leading whitespace run, when that run holds one.
Returns the remaining characters on a match. -/
def wsSplit : List Char → Option (List Char)
  | [] => none
  | c :: cs =>
    if isSpaceChar c then
      match wsSplit cs with
      | some rest => some rest
      | none => if c == '\n' then some cs else none
    else none

theorem wsSplit_length : ∀ cs rest, wsSplit cs = some rest → rest.length < cs.length := by
  intro cs
  induction cs with
  | nil => intro rest h; simp [wsSplit] at h
  | cons c cs ih =>
    intro rest h
    simp only [wsSplit] at h
    by_cases hws : isSpaceChar c
    · rw [if_pos hws] at h
      cases hsp : wsSplit cs with
      | some r =>
        rw [hsp] at h
        cases h
        exact Nat.lt_succ_of_lt (ih rest hsp)
      | none =>
        rw [hsp] at h
        by_cases hnl : c == '\n'
        · rw [if_pos hnl] at h
          cases h
          exact Nat.lt_succ_self _
        · rw [if_neg hnl] at h
          cases h
    · rw [if_neg hws] at h
      cases h

/-- `re.sub(r'\n\s*\n', '\n\n', text)` on a character list: scan left to
right; at each newline try to match `\s*\n` after it (see `wsSplit`); on a
match emit exactly two newlines and continue after the match. -/
def collapseParaAux : List Char → List Char
  | [] => []
  | c :: cs =>
    if c == '\n' then
      match h : wsSplit cs with
      | some rest => '\n' :: '\n' :: collapseParaAux rest
      | none => c :: collapseParaAux cs
    else c :: collapseParaAux cs
termination_by l => l.length
decreasing_by
  · exact Nat.lt_succ_of_lt (wsSplit_length _ _ h)
  · exact Nat.lt_succ_self _
  · exact Nat.lt_succ_self _

/-- `re.sub(r'\s+', ' ', s)` (source line 47, first regex). -/
def collapseWsStr (s : String) : String :=
  ⟨collapseWsAux s.data false⟩

/-- Python `s.strip()` (source line 47). -/
def pyStrip (s : String) : String :=
  ⟨pyStripList s.data⟩

/-- `re.sub(r'\n\s*\n', '\n\n', s)` (source line 48). -/
def collapsePara (s : String) : String :=
  ⟨collapseParaAux s.data⟩

/-- The whole whitespace-normalization step of `clean_html_content`
(source lines 47–48). -/
def normalizeWs (s : String) : String :=
  collapsePara (pyStrip (collapseWsStr s))

/-- Parsed HTML, as produced by BeautifulSoup's `html.parser` backend: text
nodes, comments, and elements with (lowercased) tag name, attributes and
children.  An item's raw markup string is recovered by `renderList`. -/
inductive Html where
  | text : String → Html
  | comment : String → Html
  | elem : String → List (String × String) → List Html → Html

/-- Serialization of an attribute list back to markup. -/
def renderAttrs : List (String × String) → String
  | [] => ""
  | (k, v) :: rest => " " ++ k ++ "=\"" ++ v ++ "\"" ++ renderAttrs rest

mutual

/-- Raw markup of one node: what the decoded `item.get_content()` string holds
for this node (source line 56). -/
def render : Html → String
  | Html.text s => s
  | Html.comment s => "<!--" ++ s ++ "-->"
  | Html.elem tag attrs children =>
      "<" ++ tag ++ renderAttrs attrs ++ ">" ++ renderList children ++ "</" ++ tag ++ ">"

/-- Raw markup of a document (a list of top-level nodes). -/
def renderList : List Html → String
  | [] => ""
  | h :: t => render h ++ renderList t

end

mutual

/-- `node.get_text()`: concatenation of all text nodes in document order. -/
def getText : Html → String
  | Html.text s => s
  | Html.comment _ => ""
  | Html.elem _ _ children => getTextList children

/-- `soup.get_text()` over a node list. -/
def getTextList : List Html → String
  | [] => ""
  | h :: t => getText h ++ getTextList t

end

/-- `for element in soup(['script', 'style']): element.decompose()`
(source lines 40–41): remove every script and style element, with its entire
subtree, from the document. -/
def stripSSList : List Html → List Html
  | [] => []
  | Html.elem tag attrs children :: t =>
    if tag == "script" || tag == "style" then stripSSList t
    else Html.elem tag attrs (stripSSList children) :: stripSSList t
  | h :: t => h :: stripSSList t

/-- `clean_html_content` (source lines 34–50): strip script/style, extract
text, collapse whitespace runs to single spaces, strip, then apply the
paragraph-break regex. -/
def clean_html_content (doc : List Html) : String :=
  collapsePara (pyStrip (collapseWsStr (getTextList (stripSSList doc))))

/-- `soup.find_all(['h1', 'h2', 'h3'])` (source line 71): all h1/h2/h3
elements of the document in document (pre-)order. -/
def findHeadersList : List Html → List Html
  | [] => []
  | Html.elem tag attrs children :: t =>
    (if tag == "h1" || tag == "h2" || tag == "h3" then [Html.elem tag attrs children] else [])
      ++ findHeadersList children ++ findHeadersList t
  | _ :: t => findHeadersList t

/-- The header loop of source lines 73–77: the first header whose stripped
text is truthy (non-empty) and shorter than 100 characters, else `None`. -/
def firstGoodHeader : List Html → Option String
  | [] => none
  | h :: t =>
    let headerText := pyStrip (getText h)
    if headerText.length != 0 && headerText.length < 100 then some headerText
    else firstGoodHeader t

/-- Chapter-title extraction for one item (source lines 69–77). -/
def findChapterTitle (doc : List Html) : Option String :=
  firstGoodHeader (findHeadersList doc)

/-- `re.search(r'chapter|prologue|epilogue', s)` (source line 59): scan
positions left to right, at each position try the three alternatives in
order. -/
def reSearchChapter : List Char → Bool
  | [] => false
  | c :: cs =>
    "chapter".data.isPrefixOf (c :: cs) || "prologue".data.isPrefixOf (c :: cs)
      || "epilogue".data.isPrefixOf (c :: cs) || reSearchChapter cs

/-- Python's `str.lower()`, as a character-wise map. -/
def pyLower (s : String) : String :=
  ⟨s.data.map Char.toLower⟩

/-- `is_chapter` for one item's decoded raw content (source line 59). -/
def isChapterContent (raw : String) : Bool :=
  reSearchChapter (pyLower raw).data

/-- Item type tags of interest (`ebooklib.ITEM_DOCUMENT` vs everything else). -/
inductive ItemType where
  | document
  | other
deriving DecidableEq

/-- One EPUB content item: its type tag and its (parsed) content.  The raw
decoded string of the item is `renderList content`. -/
structure EpubItem where
  itemType : ItemType
  content : List Html

/-- A chapter-marker fragment (source lines 80–84). -/
def chapterHeaderFrag (n : Nat) : Option String → String
  | some title => "\n\n# Chapter " ++ toString n ++ ": " ++ title ++ "\n\n"
  | none => "\n\n# Chapter " ++ toString n ++ "\n\n"

/-- The item loop of `epub_to_text` (source lines 52–88), returning the list
of fragments appended to `full_text` after the title fragment; `n` is the
running `chapter_number`. -/
def processItems : List EpubItem → Nat → List String
  | [], _ => []
  | item :: rest, n =>
    if item.itemType = ItemType.document then
      let raw := renderList item.content
      let is_chapter := isChapterContent raw
      let text := clean_html_content item.content
      if (pyStrip text).length < 100 then processItems rest n
      else
        let chapter_title := findChapterTitle item.content
        if is_chapter then
          chapterHeaderFrag n chapter_title :: text :: processItems rest (n + 1)
        else
          text :: processItems rest n
    else processItems rest n

/-- The full fragment list `full_text` (source lines 29–88). -/
def fullTextFragments (bookTitle : String) (items : List EpubItem) : List String :=
  ("# " ++ bookTitle ++ "\n\n") :: processItems items 1

/-- `'\n'.join(full_text)` (source line 95). -/
def outputText (bookTitle : String) (items : List EpubItem) : String :=
  String.intercalate "\n" (fullTextFragments bookTitle items)

/-- An EPUB book as surfaced by the container library: its DC `title`
metadata entries in order, and its content items in order. -/
structure Book where
  titles : List String
  items : List EpubItem

/-- Outcome of `epub_to_text` up to and including building the output string:
error message, or the complete text to write (source lines 17–95). -/
def epubToTextModel (inputExists : Bool) (epubPath : String) (book : Book) :
    Except String String :=
  if !inputExists then Except.error ("EPUB file not found: " ++ epubPath)
  else
    match book.titles with
    | [] => Except.error "list index out of range"
    | t :: _ => Except.ok (outputText t book.items)

/-- Observable outcome of one process run: the file at the output path after
the run (`none` when absent), the process exit code, and what was printed to
stderr. -/
structure RunResult where
  destFile : Option String
  exitCode : Nat
  stderrMsg : Option String
deriving DecidableEq

/-- `main` (source lines 99–136), as a function of the world it sees: whether
the input path exists, the parsed book behind it, and the file currently at
the output path.  On success the full text is written over `prevDest`; on any
exception the output path is untouched, `Error: {message}` goes to stderr and
the exit code is 1.  The write of source lines 94–95 is taken here as a single
step that always completes; `runMainWrite` below refines it with the
truncate-then-write failure mode of mode-'w' opening. -/
def runMain (inputExists : Bool) (epubPath : String) (book : Book)
    (prevDest : Option String) : RunResult :=
  match epubToTextModel inputExists epubPath book with
  | Except.error msg =>
      { destFile := prevDest, exitCode := 1, stderrMsg := some ("Error: " ++ msg) }
  | Except.ok text =>
      { destFile := some text, exitCode := 0, stderrMsg := none }

/-- The write of source lines 94–95 at its real granularity:
`open(output_path, 'w')` first truncates whatever file is at the destination,
then a single `f.write(text)` call follows.  `cap = none` models a write that
completes; `cap = some k` models an I/O failure (disk full, for instance)
raised after `k` characters have reached the disk.  Returns the file contents
left at the destination and whether the write succeeded. -/
def writeStep (text : String) (cap : Option Nat) : Option String × Bool :=
  match cap with
  | none => (some text, true)
  | some k => (some ⟨text.data.take k⟩, false)

/-- `main` refined with the explicit write step: a conversion error is raised
before the write and leaves the destination untouched, but an I/O failure
inside the write itself leaves the truncated prefix written so far, and
`main` (source lines 134–136) reports it as an error with exit code 1. -/
def runMainWrite (inputExists : Bool) (epubPath : String) (book : Book)
    (prevDest : Option String) (cap : Option Nat) : RunResult :=
  match epubToTextModel inputExists epubPath book with
  | Except.error msg =>
      { destFile := prevDest, exitCode := 1, stderrMsg := some ("Error: " ++ msg) }
  | Except.ok text =>
    match writeStep text cap with
    | (contents, true) => { destFile := contents, exitCode := 0, stderrMsg := none }
    | (contents, false) =>
      { destFile := contents, exitCode := 1,
        stderrMsg := some "Error: No space left on device" }

/-- No two adjacent whitespace characters anywhere in the list. -/
def noWsRun (l : List Char) : Prop :=
  List.Chain' (fun a b => isSpaceChar a = false ∨ isSpaceChar b = false) l

/-- Every whitespace character of the list is a plain space. -/
def wsOnlySpace (l : List Char) : Prop :=
  ∀ c ∈ l, isSpaceChar c = true → c = ' '

/-- The list does not start with a whitespace character. -/
def headNotWs (l : List Char) : Prop :=
  ∀ c ∈ l.head?, isSpaceChar c = false

/-- The list does not end with a whitespace character. -/
def lastNotWs (l : List Char) : Prop :=
  ∀ c ∈ l.getLast?, isSpaceChar c = false

theorem wsOnlySpace_collapseWsAux : ∀ (l : List Char) (b : Bool),
    wsOnlySpace (collapseWsAux l b) := by
  intro l
  induction l with
  | nil => intro b c hc; simp [collapseWsAux] at hc
  | cons c cs ih =>
    intro b d hd hws
    simp only [collapseWsAux] at hd
    by_cases h : isSpaceChar c
    · rw [if_pos h] at hd
      cases b with
      | true => exact ih true d hd hws
      | false =>
        rw [if_neg Bool.false_ne_true] at hd
        rcases List.mem_cons.mp hd with h1 | h1
        · exact h1
        · exact ih true d h1 hws
    · rw [if_neg h] at hd
      rcases List.mem_cons.mp hd with h1 | h1
      · subst h1; exact absurd hws (by simp [h])
      · exact ih false d h1 hws

theorem headNotWs_collapseWsAux_true : ∀ l : List Char,
    headNotWs (collapseWsAux l true) := by
  intro l
  induction l with
  | nil => intro c hc; simp [collapseWsAux] at hc
  | cons c cs ih =>
    intro d hd
    simp only [collapseWsAux] at hd
    by_cases h : isSpaceChar c
    · rw [if_pos h] at hd
      exact ih d hd
    · rw [if_neg h] at hd
      simp only [List.head?_cons, Option.mem_def, Option.some.injEq] at hd
      subst hd
      simpa using h

theorem noWsRun_collapseWsAux : ∀ (l : List Char) (b : Bool),
    noWsRun (collapseWsAux l b) := by
  intro l
  induction l with
  | nil => intro b; simp [collapseWsAux, noWsRun]
  | cons c cs ih =>
    intro b
    simp only [collapseWsAux]
    by_cases h : isSpaceChar c
    · rw [if_pos h]
      cases b with
      | true => exact ih true
      | false =>
        rw [if_neg Bool.false_ne_true]
        refine List.chain'_cons'.mpr ⟨?_, ih true⟩
        intro y hy
        exact Or.inr (headNotWs_collapseWsAux_true cs y hy)
    · rw [if_neg h]
      refine List.chain'_cons'.mpr ⟨?_, ih false⟩
      intro y _
      exact Or.inl (by simpa using h)

theorem mem_dropWhile_subset {p : Char → Bool} {l : List Char} {c : Char}
    (h : c ∈ l.dropWhile p) : c ∈ l := by
  induction l with
  | nil => simpa [List.dropWhile] using h
  | cons a t ih =>
    rw [List.dropWhile_cons] at h
    by_cases hp : p a
    · rw [if_pos hp] at h
      exact List.mem_cons_of_mem a (ih h)
    · rw [if_neg hp] at h
      exact h

theorem dropTrailWs_append : ∀ l : List Char, ∃ t, dropTrailWs l ++ t = l := by
  intro l
  induction l with
  | nil => exact ⟨[], rfl⟩
  | cons c cs ih =>
    obtain ⟨t, ht⟩ := ih
    simp only [dropTrailWs]
    cases hd : dropTrailWs cs with
    | nil =>
      by_cases h : isSpaceChar c
      · rw [if_pos h]
        exact ⟨c :: cs, rfl⟩
      · rw [if_neg h]
        refine ⟨t, ?_⟩
        rw [hd] at ht
        simpa using congrArg (c :: ·) ht
    | cons r rs =>
      refine ⟨t, ?_⟩
      rw [hd] at ht
      simpa using congrArg (c :: ·) ht

theorem mem_dropTrailWs_subset {l : List Char} {c : Char}
    (h : c ∈ dropTrailWs l) : c ∈ l := by
  obtain ⟨t, ht⟩ := dropTrailWs_append l
  rw [← ht]
  exact List.mem_append_left t h

theorem noWsRun_dropWhile {p : Char → Bool} {l : List Char} (h : noWsRun l) :
    noWsRun (l.dropWhile p) := by
  induction l with
  | nil => simpa [List.dropWhile] using h
  | cons a t ih =>
    rw [List.dropWhile_cons]
    by_cases hp : p a
    · rw [if_pos hp]
      exact ih h.tail
    · rw [if_neg hp]
      exact h

theorem noWsRun_dropTrailWs {l : List Char} (h : noWsRun l) :
    noWsRun (dropTrailWs l) := by
  obtain ⟨t, ht⟩ := dropTrailWs_append l
  rw [← ht] at h
  exact (List.chain'_append.mp h).1

theorem noWsRun_pyStripList {l : List Char} (h : noWsRun l) :
    noWsRun (pyStripList l) :=
  noWsRun_dropTrailWs (noWsRun_dropWhile h)

theorem headNotWs_dropWhile_isSpaceChar (l : List Char) :
    headNotWs (l.dropWhile isSpaceChar) := by
  induction l with
  | nil => intro c hc; simp [List.dropWhile] at hc
  | cons a t ih =>
    rw [List.dropWhile_cons]
    by_cases hp : isSpaceChar a
    · rw [if_pos hp]; exact ih
    · rw [if_neg hp]
      intro c hc
      simp only [List.head?_cons, Option.mem_def, Option.some.injEq] at hc
      subst hc
      simpa using hp

theorem headNotWs_dropTrailWs {l : List Char} (h : headNotWs l) :
    headNotWs (dropTrailWs l) := by
  cases l with
  | nil => intro c hc; simp [dropTrailWs] at hc
  | cons a t =>
    simp only [dropTrailWs]
    cases hd : dropTrailWs t with
    | nil =>
      by_cases hp : isSpaceChar a
      · rw [if_pos hp]; intro c hc; simp at hc
      · rw [if_neg hp]
        intro c hc
        simp only [List.head?_cons, Option.mem_def, Option.some.injEq] at hc
        subst hc
        simpa using hp
    | cons r rs =>
      intro c hc
      simp only [List.head?_cons, Option.mem_def, Option.some.injEq] at hc
      subst hc
      exact h a rfl

theorem lastNotWs_dropTrailWs (l : List Char) : lastNotWs (dropTrailWs l) := by
  induction l with
  | nil => intro c hc; simp [dropTrailWs] at hc
  | cons a t ih =>
    simp only [dropTrailWs]
    cases hd : dropTrailWs t with
    | nil =>
      by_cases hp : isSpaceChar a
      · rw [if_pos hp]; intro c hc; simp at hc
      · rw [if_neg hp]
        intro c hc
        simp only [List.getLast?_singleton, Option.mem_def, Option.some.injEq] at hc
        subst hc
        simpa using hp
    | cons r rs =>
      intro c hc
      rw [List.getLast?_cons_cons] at hc
      rw [hd] at ih
      exact ih c hc

theorem collapseParaAux_of_no_nl : ∀ l : List Char, '\n' ∉ l → collapseParaAux l = l := by
  intro l
  induction l with
  | nil => intro _; simp [collapseParaAux]
  | cons c cs ih =>
    intro h
    have hc1 : c ≠ '\n' := fun e => h (by rw [e]; exact List.mem_cons_self _ _)
    have hc : ¬((c == '\n') = true) := by simpa using hc1
    rw [collapseParaAux, if_neg hc, ih (fun hm => h (List.mem_cons_of_mem c hm))]

theorem no_nl_of_wsOnlySpace {l : List Char} (h : wsOnlySpace l) : '\n' ∉ l := by
  intro hm
  have := h '\n' hm (by decide)
  exact absurd this (by decide)

theorem collapseWsAux_id : ∀ (l : List Char) (b : Bool), noWsRun l → wsOnlySpace l →
    (b = true → headNotWs l) → collapseWsAux l b = l := by
  intro l
  induction l with
  | nil => intros; rfl
  | cons c cs ih =>
    intro b hrun honly hhead
    simp only [collapseWsAux]
    by_cases h : isSpaceChar c
    · cases b with
      | true =>
        have := hhead rfl c rfl
        rw [h] at this
        cases this
      | false =>
        rw [if_pos h, if_neg Bool.false_ne_true]
        have hc : c = ' ' := honly c (List.mem_cons_self _ _) h
        have hmid : headNotWs cs := by
          intro d hd
          rcases (List.chain'_cons'.mp hrun).1 d hd with h1 | h1
          · rw [hc] at h1; cases h1
          · exact h1
        rw [ih true hrun.tail (fun d hd hws => honly d (List.mem_cons_of_mem _ hd) hws)
          (fun _ => hmid), hc]
    · rw [if_neg h,
        ih false hrun.tail (fun d hd hws => honly d (List.mem_cons_of_mem _ hd) hws)
          (fun hb => absurd hb Bool.false_ne_true)]

theorem dropWhile_isSpaceChar_id {l : List Char} (h : headNotWs l) :
    l.dropWhile isSpaceChar = l := by
  cases l with
  | nil => rfl
  | cons c cs =>
    rw [List.dropWhile_cons, if_neg]
    simp [h c rfl]

theorem dropTrailWs_id : ∀ {l : List Char}, lastNotWs l → dropTrailWs l = l := by
  intro l
  induction l with
  | nil => intro _; rfl
  | cons c cs ih =>
    intro h
    simp only [dropTrailWs]
    cases cs with
    | nil =>
      have hc : isSpaceChar c = false := h c (by simp)
      simp [dropTrailWs, hc]
    | cons d ds =>
      have h2 : lastNotWs (d :: ds) := by
        intro e he
        exact h e (by rw [List.getLast?_cons_cons]; exact he)
      rw [ih h2]

theorem pyStripList_id {l : List Char} (h1 : headNotWs l) (h2 : lastNotWs l) :
    pyStripList l = l := by
  unfold pyStripList
  rw [dropWhile_isSpaceChar_id h1, dropTrailWs_id h2]

theorem wsOnlySpace_pyStripList {l : List Char} (h : wsOnlySpace l) :
    wsOnlySpace (pyStripList l) :=
  fun c hc hws => h c (mem_dropWhile_subset (mem_dropTrailWs_subset hc)) hws

theorem headNotWs_pyStripList (l : List Char) : headNotWs (pyStripList l) :=
  headNotWs_dropTrailWs (headNotWs_dropWhile_isSpaceChar l)

theorem lastNotWs_pyStripList (l : List Char) : lastNotWs (pyStripList l) :=
  lastNotWs_dropTrailWs _

theorem noWsRun_strip_collapse (s : String) :
    noWsRun (pyStrip (collapseWsStr s)).data :=
  noWsRun_pyStripList (noWsRun_collapseWsAux _ _)

theorem wsOnlySpace_strip_collapse (s : String) :
    wsOnlySpace (pyStrip (collapseWsStr s)).data :=
  wsOnlySpace_pyStripList (wsOnlySpace_collapseWsAux _ _)

/-- Source line 48 rewrites nothing: the paragraph-break regex is a no-op on
every string produced by line 47. -/
theorem collapsePara_after_strip (s : String) :
    collapsePara (pyStrip (collapseWsStr s)) = pyStrip (collapseWsStr s) :=
  congrArg String.mk
    (collapseParaAux_of_no_nl _ (no_nl_of_wsOnlySpace (wsOnlySpace_strip_collapse s)))

theorem normalizeWs_eq_strip (s : String) :
    normalizeWs s = pyStrip (collapseWsStr s) :=
  collapsePara_after_strip s

theorem normalizeWs_idem_aux (s : String) :
    normalizeWs (normalizeWs s) = normalizeWs s := by
  rw [normalizeWs_eq_strip s]
  have h1 : noWsRun (pyStrip (collapseWsStr s)).data := noWsRun_strip_collapse s
  have h2 : wsOnlySpace (pyStrip (collapseWsStr s)).data := wsOnlySpace_strip_collapse s
  have h3 : headNotWs (pyStrip (collapseWsStr s)).data := headNotWs_pyStripList _
  have h4 : lastNotWs (pyStrip (collapseWsStr s)).data := lastNotWs_pyStripList _
  unfold normalizeWs
  have e1 : collapseWsStr (pyStrip (collapseWsStr s)) = pyStrip (collapseWsStr s) :=
    congrArg String.mk
      (collapseWsAux_id _ false h1 h2 (fun hb => absurd hb Bool.false_ne_true))
  rw [e1]
  have e2 : pyStrip (pyStrip (collapseWsStr s)) = pyStrip (collapseWsStr s) :=
    congrArg String.mk (pyStripList_id h3 h4)
  rw [e2]
  exact collapsePara_after_strip s

/-- `needle` occurs contiguously inside `l`. -/
def substrP (needle l : List Char) : Prop :=
  ∃ pre post, l = pre ++ needle ++ post

theorem not_substrP_nil {needle : List Char} (h : needle ≠ []) : ¬ substrP needle [] := by
  rintro ⟨pre, post, he⟩
  have hlen := congrArg List.length he
  simp only [List.length_nil, List.length_append] at hlen
  have hn : needle.length ≠ 0 := fun h0 => h (List.length_eq_zero.mp h0)
  omega

theorem substrP_cons (needle : List Char) (c : Char) (cs : List Char) :
    substrP needle (c :: cs) ↔ needle.isPrefixOf (c :: cs) = true ∨ substrP needle cs := by
  constructor
  · rintro ⟨pre, post, h⟩
    cases pre with
    | nil =>
      left
      rw [ List.isPrefixOf_iff_prefix]
      exact ⟨post, by simpa using h.symm⟩
    | cons p ps =>
      right
      rw [List.cons_append, List.cons_append] at h
      exact ⟨ps, post, (List.cons.injEq _ _ _ _ ▸ h).2⟩
  · rintro (h | ⟨pre, post, h⟩)
    · rw [ List.isPrefixOf_iff_prefix] at h
      obtain ⟨t, ht⟩ := h
      exact ⟨[], t, by simpa using ht.symm⟩
    · exact ⟨c :: pre, post, by rw [h]; simp⟩

theorem reSearchChapter_iff (l : List Char) :
    reSearchChapter l = true ↔
      substrP "chapter".data l ∨ substrP "prologue".data l ∨ substrP "epilogue".data l := by
  induction l with
  | nil =>
    simp only [reSearchChapter, Bool.false_eq_true, false_iff]
    rintro (h | h | h)
    · exact not_substrP_nil (by decide) h
    · exact not_substrP_nil (by decide) h
    · exact not_substrP_nil (by decide) h
  | cons c cs ih =>
    simp only [reSearchChapter, Bool.or_eq_true, ih]
    rw [substrP_cons "chapter".data c cs, substrP_cons "prologue".data c cs,
      substrP_cons "epilogue".data c cs]
    tauto

/-- The chapter heuristic of source line 59, for one item whose parsed
content is `doc`, in terms of literal substring containment of the lowercased
raw markup. -/
theorem isChapterContent_iff (raw : String) :
    isChapterContent raw = true ↔
      substrP "chapter".data (pyLower raw).data ∨ substrP "prologue".data (pyLower raw).data
        ∨ substrP "epilogue".data (pyLower raw).data :=
  reSearchChapter_iff _

/-- A fragment of `full_text` is a chapter header iff it starts with the
marker text that source lines 82 and 84 put in front of the number. -/
def isHeaderFrag (f : String) : Bool :=
  "\n\n# Chapter ".data.isPrefixOf f.data

/-- The chapter-header fragments of a fragment list, in order. -/
def headerFrags (frags : List String) : List String :=
  frags.filter isHeaderFrag

theorem data_chapterHeaderFrag (n : Nat) (t : Option String) :
    ∃ rest, (chapterHeaderFrag n t).data = "\n\n# Chapter ".data ++ rest := by
  cases t with
  | none =>
    exact ⟨(toString n ++ "\n\n").data, by simp [chapterHeaderFrag, String.data_append]⟩
  | some title =>
    exact ⟨(toString n ++ ": " ++ title ++ "\n\n").data,
      by simp [chapterHeaderFrag, String.data_append]⟩

theorem isHeaderFrag_chapterHeaderFrag (n : Nat) (t : Option String) :
    isHeaderFrag (chapterHeaderFrag n t) = true := by
  obtain ⟨rest, hr⟩ := data_chapterHeaderFrag n t
  unfold isHeaderFrag
  rw [hr, List.isPrefixOf_iff_prefix]
  exact List.prefix_append _ _

theorem no_nl_clean (doc : List Html) : '\n' ∉ (clean_html_content doc).data := by
  unfold clean_html_content
  rw [collapsePara_after_strip]
  exact no_nl_of_wsOnlySpace (wsOnlySpace_strip_collapse _)

theorem isHeaderFrag_clean (doc : List Html) :
    isHeaderFrag (clean_html_content doc) = false := by
  unfold isHeaderFrag
  by_contra h
  rw [Bool.not_eq_false, List.isPrefixOf_iff_prefix] at h
  exact no_nl_clean doc (h.sublist.subset (by decide))

/-- The keep-condition of the loop: a document item whose cleaned text
survives the 100-character filter (source lines 54 and 65). -/
def keptDocument (item : EpubItem) : Bool :=
  item.itemType == ItemType.document
    && decide (100 ≤ (pyStrip (clean_html_content item.content)).length)

/-- The chapter heuristic applied to one item's raw content (source line 59). -/
def isChapterItem (item : EpubItem) : Bool :=
  isChapterContent (renderList item.content)

/-- The extracted titles of the items that are kept and classified as
chapters, in item order. -/
def keptChapterTitles (items : List EpubItem) : List (Option String) :=
  (items.filter (fun it => keptDocument it && isChapterItem it)).map
    (fun it => findChapterTitle it.content)

theorem headerFrags_processItems (items : List EpubItem) (n : Nat) :
    headerFrags (processItems items n) =
      List.zipWith chapterHeaderFrag
        (List.range' n (keptChapterTitles items).length) (keptChapterTitles items) := by
  induction items generalizing n with
  | nil => simp [headerFrags, processItems, keptChapterTitles]
  | cons item rest ih =>
    by_cases hdoc : item.itemType = ItemType.document
    · by_cases hlen : (pyStrip (clean_html_content item.content)).length < 100
      · have hkept : (keptDocument item && isChapterItem item) = false := by
          simp [keptDocument, Bool.and_eq_false_iff]
          intro _
          omega
        rw [show processItems (item :: rest) n = processItems rest n by
          simp [processItems, hdoc, hlen]]
        rw [show keptChapterTitles (item :: rest) = keptChapterTitles rest by
          simp [keptChapterTitles, List.filter_cons, hkept]]
        exact ih n
      · by_cases hch : isChapterContent (renderList item.content) = true
        · have hkept : (keptDocument item && isChapterItem item) = true := by
            simp [keptDocument, isChapterItem, hdoc, hch]
            omega
          have hstep : processItems (item :: rest) n =
              chapterHeaderFrag n (findChapterTitle item.content)
                :: clean_html_content item.content :: processItems rest (n + 1) := by
            simp [processItems, hdoc, hlen, hch]
          have htitles : keptChapterTitles (item :: rest) =
              findChapterTitle item.content :: keptChapterTitles rest := by
            simp [keptChapterTitles, List.filter_cons, hkept]
          rw [hstep, htitles]
          rw [show headerFrags (chapterHeaderFrag n (findChapterTitle item.content)
                :: clean_html_content item.content :: processItems rest (n + 1)) =
              chapterHeaderFrag n (findChapterTitle item.content)
                :: headerFrags (processItems rest (n + 1)) by
            simp [headerFrags, List.filter_cons, isHeaderFrag_chapterHeaderFrag,
              isHeaderFrag_clean]]
          rw [List.length_cons, List.range'_succ, List.zipWith_cons_cons]
          rw [ih (n + 1)]
        · have hkept : (keptDocument item && isChapterItem item) = false := by
            simp [isChapterItem, hch]
          have hstep : processItems (item :: rest) n =
              clean_html_content item.content :: processItems rest n := by
            simp [processItems, hdoc, hlen, hch]
          have htitles : keptChapterTitles (item :: rest) = keptChapterTitles rest := by
            simp [keptChapterTitles, List.filter_cons, hkept]
          rw [hstep, htitles]
          rw [show headerFrags (clean_html_content item.content :: processItems rest n) =
              headerFrags (processItems rest n) by
            simp [headerFrags, List.filter_cons, isHeaderFrag_clean]]
          exact ih n
    · have hkept : (keptDocument item && isChapterItem item) = false := by
        simp [keptDocument, Bool.and_eq_false_iff, hdoc]
      rw [show processItems (item :: rest) n = processItems rest n by
        simp [processItems, hdoc]]
      rw [show keptChapterTitles (item :: rest) = keptChapterTitles rest by
        simp [keptChapterTitles, List.filter_cons, hkept]]
      exact ih n

theorem mem_processItems : ∀ (items : List EpubItem) (n : Nat) (f : String),
    f ∈ processItems items n → isHeaderFrag f = true ∨ 100 ≤ (pyStrip f).length := by
  intro items
  induction items with
  | nil => intro n f hf; simp [processItems] at hf
  | cons item rest ih =>
    intro n f hf
    by_cases hdoc : item.itemType = ItemType.document
    · by_cases hlen : (pyStrip (clean_html_content item.content)).length < 100
      · rw [show processItems (item :: rest) n = processItems rest n by
          simp [processItems, hdoc, hlen]] at hf
        exact ih n f hf
      · by_cases hch : isChapterContent (renderList item.content) = true
        · rw [show processItems (item :: rest) n =
              chapterHeaderFrag n (findChapterTitle item.content)
                :: clean_html_content item.content :: processItems rest (n + 1) by
            simp [processItems, hdoc, hlen, hch]] at hf
          rcases List.mem_cons.mp hf with h1 | h1
          · subst h1
            exact Or.inl (isHeaderFrag_chapterHeaderFrag _ _)
          · rcases List.mem_cons.mp h1 with h2 | h2
            · subst h2
              exact Or.inr (by omega)
            · exact ih (n + 1) f h2
        · rw [show processItems (item :: rest) n =
              clean_html_content item.content :: processItems rest n by
            simp [processItems, hdoc, hlen, hch]] at hf
          rcases List.mem_cons.mp hf with h1 | h1
          · subst h1
            exact Or.inr (by omega)
          · exact ih n f h1
    · rw [show processItems (item :: rest) n = processItems rest n by
        simp [processItems, hdoc]] at hf
      exact ih n f hf

/-- Modelled from the spec: §4.1 step 5 describes title selection as taking,
among all heading elements of level 1–3 in document order, the first one whose
trimmed visible text is non-empty and shorter than 100 characters. -/
def specFirstHeadingTitle (doc : List Html) : Option String :=
  ((findHeadersList doc).map (fun h => pyStrip (getText h))).find?
    (fun t => t.length != 0 && t.length < 100)

theorem firstGoodHeader_eq_find : ∀ hs : List Html,
    firstGoodHeader hs = (hs.map (fun h => pyStrip (getText h))).find?
      (fun t => t.length != 0 && t.length < 100) := by
  intro hs
  induction hs with
  | nil => rfl
  | cons h t ih =>
    simp only [firstGoodHeader, List.map_cons]
    by_cases hc : ((pyStrip (getText h)).length != 0
        && decide ((pyStrip (getText h)).length < 100)) = true
    · rw [if_pos hc]
      simp [List.find?_cons, hc]
    · have hc' := Bool.eq_false_iff.mpr hc
      rw [if_neg hc, ih]
      simp [List.find?_cons, hc']

/-- Replaces the children of every script and style element of the document
by an arbitrary other content `repl`, leaving everything else unchanged. -/
def setSSContent (repl : List Html) : List Html → List Html
  | [] => []
  | Html.elem tag attrs children :: t =>
    if tag == "script" || tag == "style" then
      Html.elem tag attrs repl :: setSSContent repl t
    else Html.elem tag attrs (setSSContent repl children) :: setSSContent repl t
  | h :: t => h :: setSSContent repl t

theorem stripSS_setSS (repl : List Html) : ∀ l : List Html,
    stripSSList (setSSContent repl l) = stripSSList l
  | [] => by simp [setSSContent]
  | Html.elem tag attrs children :: t => by
    by_cases h : (tag == "script" || tag == "style") = true
    · rw [show setSSContent repl (Html.elem tag attrs children :: t) =
          Html.elem tag attrs repl :: setSSContent repl t by simp [setSSContent, h]]
      rw [show stripSSList (Html.elem tag attrs repl :: setSSContent repl t) =
          stripSSList (setSSContent repl t) by simp [stripSSList, h]]
      rw [show stripSSList (Html.elem tag attrs children :: t) = stripSSList t by
        simp [stripSSList, h]]
      exact stripSS_setSS repl t
    · rw [show setSSContent repl (Html.elem tag attrs children :: t) =
          Html.elem tag attrs (setSSContent repl children) :: setSSContent repl t by
        simp [setSSContent, h]]
      rw [show stripSSList (Html.elem tag attrs (setSSContent repl children)
            :: setSSContent repl t) =
          Html.elem tag attrs (stripSSList (setSSContent repl children))
            :: stripSSList (setSSContent repl t) by simp [stripSSList, h]]
      rw [show stripSSList (Html.elem tag attrs children :: t) =
          Html.elem tag attrs (stripSSList children) :: stripSSList t by
        simp [stripSSList, h]]
      rw [stripSS_setSS repl children, stripSS_setSS repl t]
  | Html.text s :: t => by
    simp only [setSSContent, stripSSList]
    rw [stripSS_setSS repl t]
  | Html.comment s :: t => by
    simp only [setSSContent, stripSSList]
    rw [stripSS_setSS repl t]

/-- A sample document item that is too short to pass the length filter. -/
def shortItem : EpubItem := ⟨ItemType.document, [Html.text "tiny"]⟩

/-- A sample document item with 120 characters of visible text and no
chapter keyword. -/
def longItem : EpubItem :=
  ⟨ItemType.document, [Html.text (String.mk (List.replicate 120 'a'))]⟩

/-- A sample document item with a chapter keyword, a heading, and enough
text to be kept. -/
def chapterItem : EpubItem :=
  ⟨ItemType.document,
   [Html.elem "h1" [] [Html.text "Chapter One"],
    Html.text (String.mk (List.replicate 120 'a'))]⟩

/-- A document item whose only heading wraps its text in a script element —
`<h1><script>Sneaky Chapter</script></h1>` — followed by 120 characters of
filler text. -/
def sneakyItem : EpubItem :=
  ⟨ItemType.document,
   [Html.elem "h1" [] [Html.elem "script" [] [Html.text "Sneaky Chapter"]],
    Html.text (String.mk (List.replicate 120 'a'))]⟩

/-- C1: over any run, the chapter-header fragments of the output are exactly
one per document item that passes the 100-character length filter and matches
the chapter-keyword heuristic, carrying the numbers 1, 2, 3, … in item order
with no gaps, however many kept non-chapter sections are interspersed. -/
theorem c1_chapter_header_count_and_dense_numbering (items : List EpubItem) :
    headerFrags (processItems items 1) =
      List.zipWith chapterHeaderFrag
        (List.range' 1 (keptChapterTitles items).length) (keptChapterTitles items) ∧
    (headerFrags (processItems items 1)).length =
      (items.filter (fun it => keptDocument it && isChapterItem it)).length := by
  refine ⟨headerFrags_processItems items 1, ?_⟩
  rw [headerFrags_processItems items 1, List.length_zipWith, List.length_range']
  simp [keptChapterTitles]

/-- C2: a document item whose cleaned text has trimmed length below 100
contributes nothing to the output — no fragment, no header, no chapter number
consumed — and consequently every non-header fragment of the output has
trimmed length at least 100. -/
theorem c2_short_items_contribute_nothing :
    (∀ (item : EpubItem) (rest : List EpubItem) (n : Nat),
      item.itemType = ItemType.document →
      (pyStrip (clean_html_content item.content)).length < 100 →
      processItems (item :: rest) n = processItems rest n) ∧
    (∀ (items : List EpubItem) (n : Nat) (f : String),
      f ∈ processItems items n → isHeaderFrag f = true ∨ 100 ≤ (pyStrip f).length) := by
  constructor
  · intro item rest n hdoc hlen
    simp [processItems, hdoc, hlen]
  · exact mem_processItems

theorem clean_shortItem_eval : clean_html_content shortItem.content = "tiny" := by
  unfold clean_html_content
  rw [collapsePara_after_strip]
  rw [show stripSSList shortItem.content = shortItem.content by simp [shortItem, stripSSList]]
  decide

theorem clean_longItem_eval :
    clean_html_content longItem.content = String.mk (List.replicate 120 'a') := by
  unfold clean_html_content
  rw [collapsePara_after_strip]
  rw [show stripSSList longItem.content = longItem.content by simp [longItem, stripSSList]]
  decide

theorem hlen_shortItem : (pyStrip (clean_html_content shortItem.content)).length < 100 := by
  rw [clean_shortItem_eval]
  decide

theorem hlen_longItem : 100 ≤ (pyStrip (clean_html_content longItem.content)).length := by
  rw [clean_longItem_eval]
  decide

theorem not_chapter_longItem : isChapterItem longItem = false := by decide

theorem processItems_longItem :
    processItems [longItem] 1 = [clean_html_content longItem.content] := by
  have h1 : ¬((pyStrip (clean_html_content longItem.content)).length < 100) :=
    Nat.not_lt.mpr hlen_longItem
  have h2 : ¬(isChapterContent (renderList longItem.content) = true) := by
    have h0 := not_chapter_longItem
    unfold isChapterItem at h0
    simp [h0]
  have hdoc : longItem.itemType = ItemType.document := rfl
  simp [processItems, hdoc, h1, h2]

theorem c2_short_items_contribute_nothing_witness :
    processItems [shortItem] 3 = processItems [] 3 ∧
    (isHeaderFrag (clean_html_content longItem.content) = true ∨
      100 ≤ (pyStrip (clean_html_content longItem.content)).length) :=
  ⟨c2_short_items_contribute_nothing.1 shortItem [] 3 rfl hlen_shortItem,
   c2_short_items_contribute_nothing.2 [longItem] 1 (clean_html_content longItem.content)
     (by rw [processItems_longItem]; exact List.mem_singleton_self _)⟩

/-- C3: an item is classified as a chapter iff its lowercased raw markup —
attributes, comments, script and style content included, since the scan runs
on the rendered markup string before any stripping — contains one of the
literal substrings "chapter", "prologue" or "epilogue". -/
theorem c3_chapter_keyword_raw_scan (item : EpubItem) :
    isChapterItem item = true ↔
      substrP "chapter".data (pyLower (renderList item.content)).data ∨
      substrP "prologue".data (pyLower (renderList item.content)).data ∨
      substrP "epilogue".data (pyLower (renderList item.content)).data :=
  isChapterContent_iff _

/-- C4: the chapter title is the trimmed text of the first h1–h3 heading in
document order that is non-empty and shorter than 100 characters (`none` when
no heading qualifies), and for a kept item not classified as a chapter, the
title is not used: only the item's text is emitted. -/
theorem c4_chapter_title_first_heading (doc : List Html) (item : EpubItem)
    (rest : List EpubItem) (n : Nat) :
    findChapterTitle doc = specFirstHeadingTitle doc ∧
    (item.itemType = ItemType.document →
      100 ≤ (pyStrip (clean_html_content item.content)).length →
      isChapterItem item = false →
      processItems (item :: rest) n =
        clean_html_content item.content :: processItems rest n) := by
  constructor
  · exact firstGoodHeader_eq_find _
  · intro hdoc hlen hch
    have hlen' : ¬((pyStrip (clean_html_content item.content)).length < 100) :=
      Nat.not_lt.mpr hlen
    have hch' : ¬(isChapterContent (renderList item.content) = true) := by
      unfold isChapterItem at hch
      simp [hch]
    simp [processItems, hdoc, hlen', hch']

theorem c4_chapter_title_first_heading_witness :
    findChapterTitle chapterItem.content = specFirstHeadingTitle chapterItem.content ∧
    processItems [longItem] 5 = clean_html_content longItem.content :: processItems [] 5 :=
  ⟨(c4_chapter_title_first_heading chapterItem.content longItem [] 5).1,
   (c4_chapter_title_first_heading chapterItem.content longItem [] 5).2 rfl hlen_longItem
     not_chapter_longItem⟩

/-- C5 counterexample: with the write modelled at its real granularity, a
disk-full failure one character into the write exits with code 1 — an error
run — yet leaves a destination holding neither the complete text, nor the
previous file, nor nothing: a truncated partial file, which the claim rules
out. -/
theorem c5_partial_write_counterexample :
    (runMainWrite true "book.epub" (Book.mk ["T"] []) (some "old") (some 1)).exitCode = 1 ∧
    ¬ ((runMainWrite true "book.epub" (Book.mk ["T"] []) (some "old") (some 1)).destFile =
          some (outputText "T" []) ∨
       (runMainWrite true "book.epub" (Book.mk ["T"] []) (some "old") (some 1)).destFile =
          some "old" ∨
       (runMainWrite true "book.epub" (Book.mk ["T"] []) (some "old") (some 1)).destFile =
          none) := by
  refine ⟨rfl, ?_⟩
  rintro (h | h | h) <;> exact absurd h (by decide)

/-- C5 (amended): an error raised before the write — missing input, missing
title metadata — leaves the destination exactly as it was with exit code 1;
a run that exits 0 has written the complete assembled text; but an I/O
failure inside the write step itself, issued after the mode-'w' open has
truncated the destination, exits 1 and leaves the prefix of the text written
so far — a partial file. -/
theorem c5_write_boundary (inputExists : Bool) (epubPath : String) (book : Book)
    (prevDest : Option String) (cap : Option Nat) :
    (∀ msg, epubToTextModel inputExists epubPath book = Except.error msg →
      (runMainWrite inputExists epubPath book prevDest cap).destFile = prevDest ∧
      (runMainWrite inputExists epubPath book prevDest cap).exitCode = 1) ∧
    ((runMainWrite inputExists epubPath book prevDest cap).exitCode = 0 →
      ∃ t ts, book.titles = t :: ts ∧
        (runMainWrite inputExists epubPath book prevDest cap).destFile =
          some (outputText t book.items)) ∧
    (∀ text k, epubToTextModel inputExists epubPath book = Except.ok text →
      cap = some k →
      (runMainWrite inputExists epubPath book prevDest cap).exitCode = 1 ∧
      (runMainWrite inputExists epubPath book prevDest cap).destFile =
        some ⟨text.data.take k⟩) := by
  refine ⟨?_, ?_, ?_⟩
  · intro msg hmsg
    simp [runMainWrite, hmsg]
  · intro h0
    cases hm : epubToTextModel inputExists epubPath book with
    | error msg => simp [runMainWrite, hm] at h0
    | ok text =>
      cases hcap : cap with
      | some k => simp [runMainWrite, hm, hcap, writeStep] at h0
      | none =>
        cases hin : inputExists with
        | false =>
          rw [hin] at hm
          simp [epubToTextModel] at hm
        | true =>
          rw [hin] at hm
          cases ht : book.titles with
          | nil =>
            simp [epubToTextModel, ht] at hm
          | cons t ts =>
            exact ⟨t, ts, rfl,
              by simp [runMainWrite, epubToTextModel, ht, hcap, writeStep]⟩
  · intro text k hok hcap
    simp [runMainWrite, hok, hcap, writeStep]

theorem c5_write_boundary_witness :
    ((runMainWrite false "b.epub" (Book.mk ["T"] []) (some "old") none).destFile = some "old" ∧
      (runMainWrite false "b.epub" (Book.mk ["T"] []) (some "old") none).exitCode = 1) ∧
    (∃ t ts, (Book.mk ["T"] ([] : List EpubItem)).titles = t :: ts ∧
      (runMainWrite true "b.epub" (Book.mk ["T"] []) none none).destFile =
        some (outputText t (Book.mk ["T"] ([] : List EpubItem)).items)) ∧
    ((runMainWrite true "b.epub" (Book.mk ["T"] []) (some "old") (some 1)).exitCode = 1 ∧
      (runMainWrite true "b.epub" (Book.mk ["T"] []) (some "old") (some 1)).destFile =
        some ⟨(outputText "T" (Book.mk ["T"] ([] : List EpubItem)).items).data.take 1⟩) :=
  ⟨(c5_write_boundary false "b.epub" (Book.mk ["T"] []) (some "old") none).1
      ("EPUB file not found: " ++ "b.epub") rfl,
   (c5_write_boundary true "b.epub" (Book.mk ["T"] []) none none).2.1 rfl,
   (c5_write_boundary true "b.epub" (Book.mk ["T"] []) (some "old") (some 1)).2.2
      (outputText "T" (Book.mk ["T"] ([] : List EpubItem)).items) 1 rfl rfl⟩

/-- C6: every cleaned section text satisfies the collapsed-whitespace
invariant — it holds no two adjacent whitespace characters at all, which is
stronger than allowing two-newline paragraph breaks — and the paragraph-break
collapse pass changes nothing on any string produced by the first
normalization pass. -/
theorem c6_plaintext_collapsed_whitespace (doc : List Html) :
    noWsRun (clean_html_content doc).data ∧
    ∀ s : String, collapsePara (pyStrip (collapseWsStr s)) = pyStrip (collapseWsStr s) := by
  constructor
  · unfold clean_html_content
    rw [collapsePara_after_strip]
    exact noWsRun_strip_collapse _
  · exact collapsePara_after_strip

/-- C7: the whitespace-normalization step of `clean_html_content` is
idempotent. -/
theorem c7_normalization_idempotent (s : String) :
    normalizeWs (normalizeWs s) = normalizeWs s :=
  normalizeWs_idem_aux s

/-- C8 counterexample: in `sneakyItem` the text "Sneaky Chapter" lives only
inside a script element, is removed from the extracted text (the cleaned text
is just the filler), and yet the produced output contains it verbatim inside
the emitted chapter header, because title extraction re-reads the unstripped
tree (source line 70). -/
theorem c8_script_text_reaches_output :
    clean_html_content sneakyItem.content = String.mk (List.replicate 120 'a') ∧
    findChapterTitle sneakyItem.content = some "Sneaky Chapter" ∧
    processItems [sneakyItem] 1 =
      ["\n\n# Chapter 1: Sneaky Chapter\n\n", String.mk (List.replicate 120 'a')] ∧
    substrP "Sneaky Chapter".data "\n\n# Chapter 1: Sneaky Chapter\n\n".data := by
  have hclean : clean_html_content sneakyItem.content = String.mk (List.replicate 120 'a') := by
    unfold clean_html_content
    rw [collapsePara_after_strip]
    rw [show stripSSList sneakyItem.content =
        [Html.elem "h1" [] [], Html.text (String.mk (List.replicate 120 'a'))] by
      simp [sneakyItem, stripSSList]]
    decide
  have htitle : findChapterTitle sneakyItem.content = some "Sneaky Chapter" := by
    unfold findChapterTitle
    rw [show findHeadersList sneakyItem.content =
        [Html.elem "h1" [] [Html.elem "script" [] [Html.text "Sneaky Chapter"]]] by
      simp [sneakyItem, findHeadersList]]
    decide
  have hch : isChapterContent (renderList sneakyItem.content) = true := by decide
  have hlen : ¬((pyStrip (clean_html_content sneakyItem.content)).length < 100) := by
    rw [hclean]
    decide
  have hdoc : sneakyItem.itemType = ItemType.document := rfl
  refine ⟨hclean, htitle, ?_, ?_⟩
  · have hstep : processItems [sneakyItem] 1 =
        chapterHeaderFrag 1 (findChapterTitle sneakyItem.content)
          :: clean_html_content sneakyItem.content :: processItems [] 2 := by
      simp [processItems, hdoc, hch, hlen]
    rw [hstep, htitle, hclean]
    decide
  · exact ⟨"\n\n# Chapter 1: ".data, "\n\n".data, by decide⟩

/-- C8 (amended): the text content of script and style elements is removed
before text extraction and never appears in the extracted section text:
`clean_html_content` is unchanged under arbitrary replacement of that
content.  It can, however, still reach the output through the chapter-title
heuristic, which searches the unstripped tree — see the counterexample. -/
theorem c8_script_style_not_in_extracted_text (doc repl : List Html) :
    clean_html_content (setSSContent repl doc) = clean_html_content doc := by
  unfold clean_html_content
  rw [stripSS_setSS]

/-- C9: when the input path does not exist the run fails before touching the
book — the result does not depend on the parsed book at all — with exit code
1, the destination untouched, and a stderr line of the shape
"Error: {message}" whose message contains "EPUB file not found". -/
theorem c9_missing_input_error (epubPath : String) (book book2 : Book)
    (prevDest : Option String) :
    runMain false epubPath book prevDest =
      ⟨prevDest, 1, some ("Error: " ++ ("EPUB file not found: " ++ epubPath))⟩ ∧
    substrP "EPUB file not found".data
      ("Error: " ++ ("EPUB file not found: " ++ epubPath)).data ∧
    runMain false epubPath book prevDest = runMain false epubPath book2 prevDest := by
  refine ⟨rfl, ?_, rfl⟩
  refine ⟨"Error: ".data, (": " ++ epubPath).data, ?_⟩
  simp [String.data_append, List.append_assoc]

/-- C10: a book with no DC title metadata entry makes the conversion fail
with Python's IndexError ("list index out of range") instead of substituting
a default title: the error reaches the top level, the exit code is 1, and
the destination file is untouched. -/
theorem c10_missing_title_metadata_error (epubPath : String) (items : List EpubItem)
    (prevDest : Option String) :
    runMain true epubPath ⟨[], items⟩ prevDest =
      ⟨prevDest, 1, some ("Error: " ++ "list index out of range")⟩ :=
  rfl
